import Mathlib

/-!
Verification of the oracle-voting contract helpers of `idena-web`
(`src/screens/oracles/utils.js` and `src/screens/oracles/hooks.js`).

The JavaScript code is shallowly embedded: JS numbers used as exact
quantities are modelled as `ℚ`/`ℕ`, arbitrary-precision integers (`bn.js`)
as `ℤ`, decimal arithmetic (`decimal.js`) as exact `ℚ` arithmetic, and the
one place where binary64 floating point is observable (`contractMaxFee`)
gets an exact model of IEEE-754 round-to-nearest-even on integer
mantissa/exponent pairs.
-/

namespace IdenaWeb

/-! ## JavaScript primitive semantics

These model the behaviour of the JS builtins and the `bn.js` / `decimal.js`
library entry points that `utils.js` calls.  They are part of the language /
library semantics, not of the repository's own code. -/

/-- Value of a list of decimal digit characters, most significant first
(the accumulator loop JS engines use for digit strings). -/
def digitsToNat (cs : List Char) : ℕ :=
  cs.foldl (fun acc c => acc * 10 + (c.toNat - 48)) 0

/-- Longest leading run of decimal digits, `none` when there is none.
Used by the `parseInt` model. -/
def parseDigitPrefix (cs : List Char) : Option ℕ :=
  let ds := cs.takeWhile (·.isDigit)
  if ds = [] then none else some (digitsToNat ds)

/-- JS `parseInt(s, 10)`: skip leading whitespace, optional sign, then the
longest digit prefix; `none` models the `NaN` result. -/
def jsParseInt (s : String) : Option ℤ :=
  match s.data.dropWhile (·.isWhitespace) with
  | '-' :: rest => (parseDigitPrefix rest).map (fun n => -(n : ℤ))
  | '+' :: rest => (parseDigitPrefix rest).map (fun n => (n : ℤ))
  | rest => (parseDigitPrefix rest).map (fun n => (n : ℤ))

/-- `new BN(s)` on a base-10 string: optional sign followed by digits only;
`none` models the `Invalid character` assertion failure. -/
def parseBN (s : String) : Option ℤ :=
  match s.data with
  | '-' :: rest =>
      if rest ≠ [] ∧ rest.all (·.isDigit) then some (-(digitsToNat rest : ℤ)) else none
  | rest =>
      if rest ≠ [] ∧ rest.all (·.isDigit) then some ((digitsToNat rest : ℤ)) else none

/-- A parsed `decimal.js` value: a sign, a digit string read as an integer
`mantissa`, and a decimal `scale`; the represented number is
`± mantissa / 10 ^ scale` (decimal.js stores sign, digits and exponent the
same way). -/
structure DecimalVal where
  neg : Bool
  mantissa : ℕ
  scale : ℕ
  deriving DecidableEq, Repr

/-- The rational number a `DecimalVal` denotes. -/
def DecimalVal.toRat (d : DecimalVal) : ℚ :=
  (if d.neg then -1 else 1) * (d.mantissa : ℚ) / (10 : ℚ) ^ d.scale

/-- `new Decimal(s)` on a plain decimal string (optional sign, digits with at
most one decimal point); `none` models the `Invalid argument` error.
Arithmetic on parsed values is modelled exactly (decimal.js is exact
decimal arithmetic for results within its precision). -/
def parseDecimal (s : String) : Option DecimalVal :=
  let withSign : Bool → List Char → Option DecimalVal := fun neg cs =>
    match cs.splitOn '.' with
    | [intPart] =>
        if intPart ≠ [] ∧ intPart.all (·.isDigit) then
          some ⟨neg, digitsToNat intPart, 0⟩
        else none
    | [intPart, fracPart] =>
        if (intPart ++ fracPart) ≠ [] ∧ (intPart ++ fracPart).all (·.isDigit) then
          some ⟨neg, digitsToNat (intPart ++ fracPart), fracPart.length⟩
        else none
    | _ => none
  match s.data with
  | '-' :: rest => withSign true rest
  | rest => withSign false rest

/-- Base-256 digits, little-endian, with an explicit structural fuel (the
fuel `n` itself always suffices); equal to `Nat.digits 256` by
`digits256_eq` below, but kernel-reducible on closed inputs. -/
def digits256Aux : ℕ → ℕ → List ℕ
  | 0, _ => []
  | fuel + 1, n => if n = 0 then [] else n % 256 :: digits256Aux fuel (n / 256)

/-- Minimal little-endian base-256 digit list of `n` (empty for `0`). -/
def digits256 (n : ℕ) : List ℕ := digits256Aux n n

/-- `BN.toArray()`: minimal big-endian byte array of the magnitude
(`[0]` for zero). -/
def bnToArrayBE (v : ℤ) : List ℕ :=
  if v.natAbs = 0 then [0] else (digits256 v.natAbs).reverse

/-- `BN.toArray('le')`: minimal little-endian byte array of the magnitude
(`[0]` for zero). -/
def bnToArrayLE (v : ℤ) : List ℕ :=
  if v.natAbs = 0 then [0] else digits256 v.natAbs

/-- Value of a little-endian byte list. -/
def leBytesToNat (l : List ℕ) : ℕ := Nat.ofDigits 256 l

/-- Value of a big-endian byte list. -/
def beBytesToNat (l : List ℕ) : ℕ := Nat.ofDigits 256 l.reverse

/-- Hex digit value. Modelled from the spec: `hexToUint8Array` lives in
`shared/utils/buffers`, which is not among the given sources; §4.1 of the
spec describes it as decoding a `0x`-prefixed or bare hex string and failing
on odd length or non-hex characters. -/
def hexDigitVal (c : Char) : Option ℕ :=
  if '0' ≤ c ∧ c ≤ '9' then some (c.toNat - 48)
  else if 'a' ≤ c ∧ c ≤ 'f' then some (c.toNat - 87)
  else if 'A' ≤ c ∧ c ≤ 'F' then some (c.toNat - 55)
  else none

/-- Modelled from the spec: hex-string decoding (`hexToUint8Array`), pairs
of hex digits to bytes, accepting an optional `0x` prefix. -/
def hexDecode (s : String) : Option (List ℕ) :=
  let cs :=
    match s.data with
    | '0' :: 'x' :: rest => rest
    | cs => cs
  let rec go : List Char → Option (List ℕ)
    | [] => some []
    | [_] => none
    | hi :: lo :: rest =>
      match hexDigitVal hi, hexDigitVal lo, go rest with
      | some h, some lw, some tl => some ((h * 16 + lw) :: tl)
      | _, _, _ => none
  go cs

/-- UTF-8 bytes of a string (JS `Buffer.from(value, 'utf8')`). -/
def utf8Bytes (s : String) : List ℕ :=
  s.toUTF8.toList.map (fun b => b.toNat)

/-! ## The typed argument encoder (`argToBytes`) -/

/-- `DNA_BASE = '1000000000000000000'` (`10^18`) from `utils.js`. -/
def dnaBase : ℕ := 1000000000000000000

/-- Number of decimal digits with an explicit structural fuel (the fuel
`n` itself always suffices); equals `(Nat.digits 10 n).length`. -/
def numDigits10Aux : ℕ → ℕ → ℕ
  | 0, _ => 0
  | fuel + 1, n => if n = 0 then 0 else numDigits10Aux fuel (n / 10) + 1

/-- Number of decimal digits of `n` (`0` for `0`). -/
def numDigits10 (n : ℕ) : ℕ := numDigits10Aux n n

/-- Rounding of a decimal.js operation result to the configured precision:
`utils.js` only raises `toExpPos` (line 26), so `Decimal.precision` keeps
its default of 20 significant digits and `Decimal.rounding` its default
`ROUND_HALF_UP`.  Significant-digit rounding is independent of the decimal
point's position, so it is expressed here on the integer digit string: a
number of at most 20 digits (or whose dropped digits are all zero) is kept
exactly, otherwise the tail beyond the leading 20 digits is rounded
half-up. -/
def roundSig20 (m : ℕ) : ℕ :=
  let d := numDigits10 m
  if d ≤ 20 then m
  else
    let p := 10 ^ (d - 20)
    let q := m / p
    let r := m % p
    (if 2 * r ≥ p then q + 1 else q) * p

/-- The error thrown out of `argToBytes`: the `catch` block rethrows
`cannot parse ${data.format} at index ${data.index}: ${e.message}`, so the
error carries the argument's index, its format and the inner reason. -/
structure EncodingError where
  index : ℕ
  format : String
  reason : String
  deriving DecidableEq, Repr

deriving instance DecidableEq for Except

/-- An argument as consumed by `argToBytes` / `argsToSlice`: the objects
produced by `buildDynamicArgs` (whose `value` is always a string after the
null filter). -/
structure CallArg where
  index : ℕ
  format : String
  value : String
  deriving DecidableEq, Repr

/-- The body of the `switch (data.format)` in `argToBytes`, before the
wrapping `catch`; errors are the messages of the exceptions thrown inside
the branches. -/
def argToBytesInner (format value : String) : Except String (List ℕ) :=
  if format = "byte" then
    match jsParseInt value with
    | some v => if 0 ≤ v ∧ v ≤ 255 then .ok [v.toNat] else .error "invalid byte value"
    | none => .error "invalid byte value"
  else if format = "int8" then
    match jsParseInt value with
    | some v => if 0 ≤ v ∧ v ≤ 255 then .ok [v.toNat] else .error "invalid int8 value"
    | none => .error "invalid int8 value"
  else if format = "uint64" then
    match parseBN value with
    | some v =>
        if v < 0 then .error "invalid uint64 value"
        else .ok ((bnToArrayLE v ++ List.replicate 8 0).take 8)
    | none => .error "Invalid character"
  else if format = "int64" then
    match parseBN value with
    | some v => .ok ((bnToArrayLE v ++ List.replicate 8 0).take 8)
    | none => .error "Invalid character"
  else if format = "string" then
    .ok (utf8Bytes value)
  else if format = "bigint" then
    match parseBN value with
    | some v => .ok (bnToArrayBE v)
    | none => .error "Invalid character"
  else if format = "dna" then
    -- `new BN(new Decimal(value).mul(new Decimal(DNA_BASE)).toString())`:
    -- `mul` rounds its result to the configured precision (the default 20
    -- significant digits, half-up — see `roundSig20`), so the encoded
    -- value is `± roundSig20(mantissa * 10^18) / 10^scale`; its string
    -- form parses as a BN only when it is an integer, and `BN.toArray()`
    -- serializes the magnitude, so the sign does not affect the bytes.
    match parseDecimal value with
    | some d =>
        if roundSig20 (d.mantissa * dnaBase) % 10 ^ d.scale = 0 then
          .ok (bnToArrayBE ((roundSig20 (d.mantissa * dnaBase) / 10 ^ d.scale : ℕ) : ℤ))
        else .error "Invalid character"
    | none => .error "Invalid argument"
  else
    -- the explicit 'hex' case and the default case are the same code path
    match hexDecode value with
    | some bs => .ok bs
    | none => .error "invalid hex string"

/-- `argToBytes(data)`: dispatch on the format and wrap any failure into an
error carrying the argument's index and format. -/
def argToBytes (data : CallArg) : Except EncodingError (List ℕ) :=
  match argToBytesInner data.format data.value with
  | .ok l => .ok l
  | .error m => .error ⟨data.index, data.format, m⟩

/-! ## The argument slice builder (`argsToSlice`) -/

/-- One slot of the JS result array: `null` (the fill value), a byte array,
or a hole (JS arrays grow with holes when written past their end; holes read
as `undefined`). -/
inductive Slot where
  | null
  | undef
  | bytes (bs : List ℕ)
  deriving DecidableEq, Repr

/-- JS array element assignment `l[i] = v`: in-bounds writes replace the
slot, writes past the end extend the array, padding with holes. -/
def jsArraySet (l : List Slot) (i : ℕ) (v : Slot) : List Slot :=
  if i < l.length then l.set i v
  else l ++ List.replicate (i - l.length) Slot.undef ++ [v]

/-- `Math.max(...xs)` over a list of naturals (the call sites apply it to a
non-empty list of non-negative indices, where it agrees with this fold). -/
def maxNat (l : List ℕ) : ℕ := l.foldl max 0

/-- The body of the `args.forEach` loop in `argsToSlice`:
`result[element.index] = argToBytes(element)` (a thrown encoding error
aborts the loop). -/
def sliceStep (acc : List Slot) (a : CallArg) : Except EncodingError (List Slot) := do
  let b ← argToBytes a
  pure (jsArraySet acc a.index (Slot.bytes b))

/-- `argsToSlice(args)` from `utils.js`:
empty input returns `[]`; otherwise an array of length `maxIndex` filled
with `null` is allocated and every argument's encoding is assigned at its
index (the write at `maxIndex` itself extends the array by one slot).
The `forEach` with in-place mutation is the fold of `sliceStep` over the
array state. -/
def argsToSlice (args : List CallArg) : Except EncodingError (List Slot) :=
  if args.length = 0 then .ok []
  else
    let maxIndex := maxNat (args.map (·.index))
    args.foldlM sliceStep (List.replicate maxIndex Slot.null)

/-! ## `buildDynamicArgs` -/

/-- The `value` field of an argument descriptor before normalization:
a string, a (non-negative integral) number, `null`, or `undefined`. -/
inductive JSVal where
  | str (s : String)
  | nat (n : ℕ)
  | null
  | undef
  deriving DecidableEq, Repr

/-- The string coercion in `buildDynamicArgs`:
`typeof value !== 'string' ? value?.toString() ?? null : value`. -/
def coerceValue : JSVal → Option String
  | .str s => some s
  | .nat n => some (toString n)
  | .null => none
  | .undef => none

/-- An input argument descriptor `{format, value}` (format may be absent,
defaulting to `'hex'`). -/
structure DynArg where
  format : Option String
  value : JSVal
  deriving DecidableEq, Repr

/-- The per-position body of `buildDynamicArgs`: build
`{index, format = format ?? 'hex', value = coerced}` and keep it only when
the coerced value is not null. -/
def bdaEntry (p : ℕ × DynArg) : Option CallArg :=
  (coerceValue p.2.value).map fun v => ⟨p.1, p.2.format.getD "hex", v⟩

/-- `buildDynamicArgs(args)`: each argument's `index` is its position in the
original list (the `map` runs before the `filter`), values are coerced to
strings, and arguments whose coerced value is null are dropped.  The
map-then-filter of the source is expressed as a `filterMap` so that the kept
arguments can carry their unwrapped string values. -/
def buildDynamicArgs (args : List DynArg) : List CallArg :=
  args.enum.filterMap bdaEntry

/-! ## `contractMaxFee` and exact binary64 arithmetic

`contractMaxFee(gasCost, txFee)` is `Math.ceil((Number(gasCost) + Number(txFee)) * 1.1)`
computed on JS numbers, i.e. IEEE-754 binary64 floats.  Floats are modelled
exactly as integer pairs `m * 2^e`; every operation rounds its exact result
to 53 significant bits with round-to-nearest, ties-to-even, which is the
IEEE behaviour for values in the normal range (the inputs here are small
fee/gas quantities, far from overflow and subnormals). -/

/-- A binary64 value `m * 2^e` (mantissa not forced into a canonical form;
only the represented value matters). -/
structure F64 where
  m : ℤ
  e : ℤ
  deriving DecidableEq, Repr

namespace F64

/-- Number of bits with an explicit structural fuel (the fuel `n` itself
always suffices). -/
def bitLengthAux : ℕ → ℕ → ℕ
  | 0, _ => 0
  | fuel + 1, n => if n = 0 then 0 else bitLengthAux fuel (n / 2) + 1

/-- Number of bits of a natural number (`0` for `0`). -/
def bitLength (n : ℕ) : ℕ := bitLengthAux n n

/-- Round `m * 2^e` to at most 53 significant bits, round-to-nearest,
ties-to-even. -/
def normalize53 (m : ℤ) (e : ℤ) : F64 :=
  if m = 0 then ⟨0, 0⟩
  else
    let n := m.natAbs
    let b := bitLength n
    if b ≤ 53 then ⟨m, e⟩
    else
      let s := b - 53
      let d := 2 ^ s
      let q := n / d
      let r := n % d
      let q' := if 2 * r > d ∨ (2 * r = d ∧ q % 2 = 1) then q + 1 else q
      ⟨if m < 0 then -(q' : ℤ) else (q' : ℤ), e + s⟩

/-- Binary64 addition: exact sum, then one rounding. -/
def add (a b : F64) : F64 :=
  if a.e ≤ b.e then normalize53 (a.m + b.m * 2 ^ (b.e - a.e).toNat) a.e
  else normalize53 (a.m * 2 ^ (a.e - b.e).toNat + b.m) b.e

/-- Binary64 multiplication: exact product, then one rounding. -/
def mul (a b : F64) : F64 := normalize53 (a.m * b.m) (a.e + b.e)

/-- The binary64 value of a small integer literal. -/
def ofNat (n : ℕ) : F64 := normalize53 n 0

/-- Round a positive quotient `a / b` to the nearest integer, ties-to-even. -/
def roundHalfEvenDiv (a b : ℕ) : ℕ :=
  let q := a / b
  let r := a % b
  if 2 * r > b ∨ (2 * r = b ∧ q % 2 = 1) then q + 1 else q

/-- The binary64 value of the positive rational literal `a / b`
(e.g. the source's `1.1`).  The quotient is first rounded at a scale of
well over 106 extra bits, where the intermediate double rounding is known
to coincide with direct rounding to 53 bits. -/
def ofRatPos (a b : ℕ) : F64 :=
  let s := 119 + bitLength b
  normalize53 (roundHalfEvenDiv (a * 2 ^ s) b) (-(s : ℤ))

/-- `Math.ceil` of a binary64 value, as an exact integer. -/
def ceil (x : F64) : ℤ :=
  if 0 ≤ x.e then x.m * 2 ^ x.e.toNat
  else -((-x.m).ediv (2 ^ (-x.e).toNat))

end F64

/-- `contractMaxFee(gasCost, txFee) = Math.ceil((Number(gasCost) + Number(txFee)) * 1.1)`
over binary64 values (for numeric inputs `Number` is the identity; the
literal `1.1` is the binary64 value nearest to 11/10). -/
def contractMaxFee (gasCost txFee : F64) : ℤ :=
  F64.ceil (F64.mul (F64.add gasCost txFee) (F64.ofRatPos 11 10))

/-! ## Contract-economics calculator

The voting-record fields are JS numbers; where the functions are used on
actual numeric data they are modelled as exact rationals (for the
quantities involved — counts and percentages far below `2^46` — binary64
`Math.ceil`, comparison and `Math.max` agree with the exact values). -/

/-- One element of the `votes` array: `{count}`. -/
structure Vote where
  count : ℚ
  deriving DecidableEq, Repr

/-- A voting record as consumed by the economics functions. -/
structure VotingRecord where
  votes : List Vote
  votesCount : ℚ
  quorum : ℚ
  committeeSize : ℚ
  winnerThreshold : ℚ
  deriving DecidableEq, Repr

/-- `quorumVotesCount({quorum, committeeSize}) = Math.ceil(committeeSize * quorum / 100)`. -/
def quorumVotesCount (quorum committeeSize : ℚ) : ℤ :=
  ⌈committeeSize * quorum / 100⌉

/-- `winnerVotesCount({winnerThreshold, votesCount}) = Math.ceil(votesCount * winnerThreshold / 100)`. -/
def winnerVotesCount (winnerThreshold votesCount : ℚ) : ℤ :=
  ⌈votesCount * winnerThreshold / 100⌉

/-- `hasQuorum({votesCount, quorum, committeeSize})`. -/
def hasQuorum (votesCount quorum committeeSize : ℚ) : Bool :=
  ((quorumVotesCount quorum committeeSize : ℚ) ≤ votesCount)

/-- `votes.reduce((prev, cur) => prev + cur.count, 0)`. -/
def sumVoteCounts (votes : List Vote) : ℚ :=
  votes.foldl (fun prev cur => prev + cur.count) 0

/-- `hasWinner({votes, votesCount, winnerThreshold, quorum, committeeSize})`:
the winner threshold is computed over the sum of the option counts, the
quorum over the `votesCount` field. -/
def hasWinner (r : VotingRecord) : Bool :=
  let requiredVotesCountByVotes :=
    winnerVotesCount r.winnerThreshold (sumVoteCounts r.votes)
  let didReachQuorum := hasQuorum r.votesCount r.quorum r.committeeSize
  didReachQuorum && r.votes.any (fun v => (requiredVotesCountByVotes : ℚ) ≤ v.count)

/-! ## `oracleReward` and NaN propagation

`oracleReward` is the one economics function with an explicit validity
guard (`Number.isNaN`), so its inputs are modelled as JS numbers that may
be `NaN` or infinite. -/

/-- A JS number: a finite (rational) value, `NaN`, or a signed infinity. -/
inductive JSNum where
  | num (q : ℚ)
  | nan
  | inf
  | negInf
  deriving DecidableEq, Repr

namespace JSNum

/-- `Number.isNaN`. -/
def isNaN : JSNum → Bool
  | .nan => true
  | _ => false

def jsAdd : JSNum → JSNum → JSNum
  | .num a, .num b => .num (a + b)
  | .nan, _ | _, .nan => .nan
  | .inf, .negInf | .negInf, .inf => .nan
  | .inf, _ | _, .inf => .inf
  | .negInf, _ | _, .negInf => .negInf

def jsSub : JSNum → JSNum → JSNum
  | .num a, .num b => .num (a - b)
  | .nan, _ | _, .nan => .nan
  | .inf, .inf | .negInf, .negInf => .nan
  | .inf, _ | _, .negInf => .inf
  | .negInf, _ | _, .inf => .negInf

def jsMul : JSNum → JSNum → JSNum
  | .num a, .num b => .num (a * b)
  | .nan, _ | _, .nan => .nan
  | .inf, .num a | .num a, .inf =>
      if a = 0 then .nan else if 0 < a then .inf else .negInf
  | .negInf, .num a | .num a, .negInf =>
      if a = 0 then .nan else if 0 < a then .negInf else .inf
  | .inf, .inf | .negInf, .negInf => .inf
  | .inf, .negInf | .negInf, .inf => .negInf

def jsDiv : JSNum → JSNum → JSNum
  | .num a, .num b =>
      if b = 0 then (if a = 0 then .nan else if 0 < a then .inf else .negInf)
      else .num (a / b)
  | .nan, _ | _, .nan => .nan
  | .inf, .inf | .inf, .negInf | .negInf, .inf | .negInf, .negInf => .nan
  | .inf, .num a => if 0 ≤ a then .inf else .negInf
  | .negInf, .num a => if 0 ≤ a then .negInf else .inf
  | .num _, .inf | .num _, .negInf => .num 0

/-- `Math.ceil` on a JS number. -/
def jsCeil : JSNum → JSNum
  | .num a => .num (⌈a⌉ : ℚ)
  | x => x

/-- `Math.max` of two JS numbers (`NaN` if either argument is `NaN`). -/
def jsMax : JSNum → JSNum → JSNum
  | .nan, _ | _, .nan => .nan
  | .inf, _ | _, .inf => .inf
  | .negInf, x | x, .negInf => x
  | .num a, .num b => .num (max a b)

end JSNum

/-- `oracleReward({balance, votesCount, quorum, committeeSize, ownerFee})`:
`undefined` (modelled as `none`) when any of balance, votesCount, quorum,
committeeSize is `NaN`; otherwise
`balance * (1 - ownerFee / 100) / Math.max(quorumVotesCount({quorum, committeeSize}), votesCount)`. -/
def oracleReward (balance votesCount quorum committeeSize ownerFee : JSNum) :
    Option JSNum :=
  if [balance, votesCount, quorum, committeeSize].any (·.isNaN) then none
  else
    some (JSNum.jsDiv
      (JSNum.jsMul balance (JSNum.jsSub (.num 1) (JSNum.jsDiv ownerFee (.num 100))))
      (JSNum.jsMax
        (JSNum.jsCeil (JSNum.jsDiv (JSNum.jsMul committeeSize quorum) (.num 100)))
        votesCount))

/-! ## Deferred votes (`hooks.js`) -/

/-- The fields of a persisted deferred vote that the scheduling logic
reads: its queue id and the earliest eligible block. -/
structure DeferredVote where
  id : ℕ
  block : ℕ
  deriving DecidableEq, Repr

/-- `useDeferredVotes`' eligibility filter (line 170 of `hooks.js`):
`deferredVotes.filter(x => x.block < currentBlock)`. -/
def availableVotes (deferredVotes : List DeferredVote) (currentBlock : ℕ) :
    List DeferredVote :=
  deferredVotes.filter (fun x => x.block < currentBlock)

/-- Observable outcome of the `catch` block of `sendVote` in `hooks.js`:
whether the vote's scheduled block was updated (and to what), whether the
vote was deleted from the queue, whether the error toast with the original
message was shown, and whether the "please prolong" prompt was shown
instead. -/
structure VoteErrorOutcome where
  updatedBlock : Option ℕ
  deleted : Bool
  errorShown : Bool
  prolongPromptShown : Bool
  deriving DecidableEq, Repr

/-- The error dispatch of `sendVote` (lines 115–167 of `hooks.js`).
`reads` is the result of the two `readContractData` calls for `startBlock`
and `votingDuration` (`none` when one of them threw — that secondary
failure is swallowed and, via the `finally`, the original error is still
shown); `canProlong` is the result of the `prolongVoting` dry run. -/
def handleSendVoteError (message : String) (reads : Option (ℕ × ℕ))
    (canProlong : Bool) (vote : DeferredVote) : VoteErrorOutcome :=
  if message = "too early to accept open vote" then
    match reads with
    | some (startBlock, votingDuration) =>
        let nextVoteBlock := startBlock + votingDuration
        if vote.block < nextVoteBlock then
          ⟨some nextVoteBlock, false, true, false⟩
        else ⟨none, false, true, false⟩
    | none => ⟨none, false, true, false⟩
  else if message = "too late to accept open vote" ∨ message = "quorum is not reachable" then
    if canProlong then ⟨none, false, false, true⟩
    else ⟨none, true, true, false⟩
  else if message = "insufficient funds" then ⟨none, false, true, false⟩
  else ⟨none, true, true, false⟩

/-! ## Helper lemmas -/

theorem except_pure_eq {ε α : Type} (a : α) : (pure a : Except ε α) = .ok a := rfl

theorem except_bind_ok {ε α β : Type} (a : α) (f : α → Except ε β) :
    (Except.ok a >>= f : Except ε β) = f a := rfl

theorem except_bind_error {ε α β : Type} (e : ε) (f : α → Except ε β) :
    (Except.error e >>= f : Except ε β) = Except.error e := rfl

theorem acc_le_foldl_max (l : List ℕ) : ∀ acc, acc ≤ l.foldl max acc := by
  induction l with
  | nil => intro acc; exact le_rfl
  | cons a l ih =>
      intro acc
      exact le_trans (le_max_left acc a) (ih (max acc a))

theorem le_foldl_max (l : List ℕ) : ∀ acc x, x ∈ l → x ≤ l.foldl max acc := by
  induction l with
  | nil => intro _ x hx; cases hx
  | cons a l ih =>
      intro acc x hx
      rcases List.mem_cons.mp hx with rfl | hx
      · exact le_trans (le_max_right acc x) (acc_le_foldl_max l (max acc x))
      · exact ih (max acc a) x hx

/-- Every element of a list is bounded by `maxNat`. -/
theorem le_maxNat {l : List ℕ} {x : ℕ} (hx : x ∈ l) : x ≤ maxNat l :=
  le_foldl_max l 0 x hx

theorem foldl_max_mem (l : List ℕ) : ∀ acc, l.foldl max acc ∈ l ∨ l.foldl max acc = acc := by
  induction l with
  | nil => intro acc; exact Or.inr rfl
  | cons a l ih =>
      intro acc
      simp only [List.foldl_cons]
      rcases ih (max acc a) with h | h
      · exact Or.inl (List.mem_cons_of_mem a h)
      · rw [h]
        rcases max_choice acc a with h2 | h2
        · exact Or.inr h2
        · exact Or.inl (by rw [h2]; exact List.mem_cons_self a l)

/-- `maxNat` of a non-empty list is attained. -/
theorem maxNat_mem {l : List ℕ} (h : l ≠ []) : maxNat l ∈ l := by
  rcases foldl_max_mem l 0 with hm | h0
  · exact hm
  · cases l with
    | nil => exact absurd rfl h
    | cons a l =>
        have ha : a ≤ maxNat (a :: l) := le_maxNat (List.mem_cons_self a l)
        have h0' : maxNat (a :: l) = 0 := h0
        have haz : a = 0 := Nat.le_antisymm (by omega) (Nat.zero_le a)
        rw [h0', ← haz]
        exact List.mem_cons_self a l

/-- Length of a JS array write: in-bounds writes keep the length, writes
past the end extend the array up to the written index. -/
theorem jsArraySet_length (l : List Slot) (i : ℕ) (v : Slot) :
    (jsArraySet l i v).length = max l.length (i + 1) := by
  unfold jsArraySet
  split
  · simp only [List.length_set]
    omega
  · simp only [List.length_append, List.length_replicate, List.length_cons,
      List.length_nil]
    omega

theorem jsArraySet_getElem?_self (l : List Slot) (i : ℕ) (v : Slot) :
    (jsArraySet l i v)[i]? = some v := by
  unfold jsArraySet
  split
  · exact List.getElem?_set_eq_of_lt v (by assumption)
  · have hil : ¬ i < l.length := by assumption
    have hlen : (l ++ List.replicate (i - l.length) Slot.undef).length = i := by
      simp only [List.length_append, List.length_replicate]; omega
    rw [List.getElem?_append_right (le_of_eq hlen), hlen, Nat.sub_self]
    rfl

theorem jsArraySet_getElem?_ne (l : List Slot) (i j : ℕ) (v : Slot)
    (hne : j ≠ i) (hj : j < l.length) :
    (jsArraySet l i v)[j]? = l[j]? := by
  unfold jsArraySet
  split
  · exact List.getElem?_set_ne (Ne.symm hne)
  · have hlt : j < (l ++ List.replicate (i - l.length) Slot.undef).length := by
      simp only [List.length_append, List.length_replicate]
      omega
    rw [List.getElem?_append_left hlt, List.getElem?_append_left hj]

/-- A successful loop step is a successful encoding followed by the array
write. -/
theorem sliceStep_ok {acc : List Slot} {a : CallArg} {l : List Slot}
    (h : sliceStep acc a = .ok l) :
    ∃ b, argToBytes a = .ok b ∧ l = jsArraySet acc a.index (Slot.bytes b) := by
  cases hb : argToBytes a with
  | ok b =>
      refine ⟨b, rfl, ?_⟩
      simp only [sliceStep, hb, except_bind_ok, except_pure_eq, Except.ok.injEq] at h
      exact h.symm
  | error e =>
      simp only [sliceStep, hb, except_bind_error] at h
      exact Except.noConfusion h

/-- Invariants of the `forEach` loop of `argsToSlice`: the array length
stays between `M` and `M + 1` (`M` bounds all indices), positions whose
index never occurs are untouched, and once some argument with index `M`
has been written the length is exactly `M + 1`. -/
theorem foldlM_slice_spec (M : ℕ) :
    ∀ (args : List CallArg) (acc l : List Slot),
      (∀ a ∈ args, a.index ≤ M) → M ≤ acc.length → acc.length ≤ M + 1 →
      args.foldlM sliceStep acc = .ok l →
      M ≤ l.length ∧ l.length ≤ M + 1 ∧ acc.length ≤ l.length ∧
      (∀ j, j < acc.length → j ∉ args.map (·.index) → l[j]? = acc[j]?) ∧
      ((M ∈ args.map (·.index) ∨ acc.length = M + 1) → l.length = M + 1) := by
  intro args
  induction args with
  | nil =>
      intro acc l _ h1 h2 hfold
      simp only [List.foldlM_nil, except_pure_eq, Except.ok.injEq] at hfold
      subst hfold
      refine ⟨h1, h2, le_rfl, fun j _ _ => rfl, ?_⟩
      rintro (hm | hm)
      · simp at hm
      · exact hm
  | cons a args ih =>
      intro acc l hidx h1 h2 hfold
      rw [List.foldlM_cons] at hfold
      cases hstep : sliceStep acc a with
      | error e =>
          rw [hstep, except_bind_error] at hfold
          exact Except.noConfusion hfold
      | ok acc' =>
          rw [hstep, except_bind_ok] at hfold
          obtain ⟨b, _, rfl⟩ := sliceStep_ok hstep
          have hai : a.index ≤ M := hidx a (List.mem_cons_self a args)
          have hlen' : (jsArraySet acc a.index (Slot.bytes b)).length
              = max acc.length (a.index + 1) := jsArraySet_length ..
          have h1' : M ≤ (jsArraySet acc a.index (Slot.bytes b)).length := by
            rw [hlen']; omega
          have h2' : (jsArraySet acc a.index (Slot.bytes b)).length ≤ M + 1 := by
            rw [hlen']; omega
          obtain ⟨c1, c2, c3, c4, c5⟩ :=
            ih (jsArraySet acc a.index (Slot.bytes b)) l
              (fun x hx => hidx x (List.mem_cons_of_mem a hx)) h1' h2' hfold
          refine ⟨c1, c2, ?_, ?_, ?_⟩
          · calc acc.length ≤ max acc.length (a.index + 1) := le_max_left _ _
              _ = _ := hlen'.symm
              _ ≤ l.length := c3
          · intro j hj hmem
            have hj1 : j ∉ args.map (·.index) := by
              intro hc; exact hmem (by simp only [List.map_cons]; exact List.mem_cons_of_mem _ hc)
            have hj2 : j ≠ a.index := by
              intro hc; exact hmem (by simp only [List.map_cons, hc]; exact List.mem_cons_self _ _)
            have := c4 j (by rw [hlen']; omega) hj1
            rw [this, jsArraySet_getElem?_ne acc a.index j (Slot.bytes b) hj2 hj]
          · rintro (hm | hm)
            · simp only [List.map_cons, List.mem_cons] at hm
              rcases hm with hm | hm
              · refine c5 (Or.inr ?_)
                rw [hlen', ← hm]; omega
              · exact c5 (Or.inl hm)
            · refine c5 (Or.inr ?_)
              rw [hlen', hm]; omega

/-- When the indices are pairwise distinct, each argument's encoding ends
up at its own index. -/
theorem foldlM_slice_assign (M : ℕ) :
    ∀ (args : List CallArg) (acc l : List Slot),
      (∀ a ∈ args, a.index ≤ M) → M ≤ acc.length → acc.length ≤ M + 1 →
      (args.map (·.index)).Nodup →
      args.foldlM sliceStep acc = .ok l →
      ∀ a ∈ args, ∃ b, argToBytes a = .ok b ∧ l[a.index]? = some (Slot.bytes b) := by
  intro args
  induction args with
  | nil => intro acc l _ _ _ _ _ a ha; cases ha
  | cons a args ih =>
      intro acc l hidx h1 h2 hnd hfold x hx
      rw [List.foldlM_cons] at hfold
      cases hstep : sliceStep acc a with
      | error e =>
          rw [hstep, except_bind_error] at hfold
          exact Except.noConfusion hfold
      | ok acc' =>
          rw [hstep, except_bind_ok] at hfold
          obtain ⟨b, hb, rfl⟩ := sliceStep_ok hstep
          have hai : a.index ≤ M := hidx a (List.mem_cons_self a args)
          have hlen' : (jsArraySet acc a.index (Slot.bytes b)).length
              = max acc.length (a.index + 1) := jsArraySet_length ..
          have h1' : M ≤ (jsArraySet acc a.index (Slot.bytes b)).length := by
            rw [hlen']; omega
          have h2' : (jsArraySet acc a.index (Slot.bytes b)).length ≤ M + 1 := by
            rw [hlen']; omega
          simp only [List.map_cons, List.nodup_cons] at hnd
          rcases List.mem_cons.mp hx with rfl | hx
          · refine ⟨b, hb, ?_⟩
            obtain ⟨-, -, -, c4, -⟩ :=
              foldlM_slice_spec M args (jsArraySet acc x.index (Slot.bytes b)) l
                (fun y hy => hidx y (List.mem_cons_of_mem x hy)) h1' h2' hfold
            have := c4 x.index (by rw [hlen']; omega) hnd.1
            rw [this, jsArraySet_getElem?_self]
          · exact ih (jsArraySet acc a.index (Slot.bytes b)) l
              (fun y hy => hidx y (List.mem_cons_of_mem a hy)) h1' h2' hnd.2 hfold x hx

/-- A successful non-empty `argsToSlice` run yields a slice of length
`maxIndex + 1` whose unsupplied positions hold the `null` placeholder. -/
theorem argsToSlice_ok_spec {args : List CallArg} {l : List Slot}
    (hne : args ≠ []) (h : argsToSlice args = .ok l) :
    l.length = maxNat (args.map (·.index)) + 1 ∧
    ∀ j, j ≤ maxNat (args.map (·.index)) → j ∉ args.map (·.index) →
      l[j]? = some Slot.null := by
  have hlen0 : args.length ≠ 0 := fun hc => hne (List.length_eq_zero.mp hc)
  rw [argsToSlice, if_neg hlen0] at h
  set M := maxNat (args.map (·.index)) with hM
  have hmapne : args.map (·.index) ≠ [] := by
    intro hc; exact hne (List.map_eq_nil_iff.mp hc)
  have hMmem : M ∈ args.map (·.index) := maxNat_mem hmapne
  have hidx : ∀ a ∈ args, a.index ≤ M := fun a ha =>
    le_maxNat (List.mem_map_of_mem (·.index) ha)
  obtain ⟨-, -, -, c4, c5⟩ :=
    foldlM_slice_spec M args (List.replicate M Slot.null) l hidx
      (by simp) (by simp) h
  refine ⟨c5 (Or.inl hMmem), ?_⟩
  intro j hj hmem
  have hjM : j ≠ M := fun hc => hmem (hc ▸ hMmem)
  have hjlt : j < M := lt_of_le_of_ne hj hjM
  rw [c4 j (by simpa using hjlt) hmem]
  simp [List.getElem?_replicate, hjlt]

/-- With pairwise-distinct indices, position `a.index` of the slice holds
`a`'s encoding. -/
theorem argsToSlice_ok_assign {args : List CallArg} {l : List Slot}
    (hne : args ≠ []) (hnd : (args.map (·.index)).Nodup)
    (h : argsToSlice args = .ok l) :
    ∀ a ∈ args, ∃ b, argToBytes a = .ok b ∧ l[a.index]? = some (Slot.bytes b) := by
  have hlen0 : args.length ≠ 0 := fun hc => hne (List.length_eq_zero.mp hc)
  rw [argsToSlice, if_neg hlen0] at h
  exact foldlM_slice_assign (maxNat (args.map (·.index))) args
    (List.replicate (maxNat (args.map (·.index))) Slot.null) l
    (fun a ha => le_maxNat (List.mem_map_of_mem (·.index) ha))
    (by simp) (by simp) hnd h

/-! ### Digit-list lemmas for the fixed-width and big-endian encodings -/

theorem digits256Aux_eq : ∀ (fuel n : ℕ), n ≤ fuel →
    digits256Aux fuel n = Nat.digits 256 n := by
  intro fuel
  induction fuel with
  | zero =>
      intro n hn
      have : n = 0 := Nat.le_zero.mp hn
      subst this
      simp [digits256Aux]
  | succ fuel ih =>
      intro n hn
      rcases eq_or_ne n 0 with rfl | hne
      · simp [digits256Aux]
      · rw [digits256Aux, if_neg hne,
          Nat.digits_def' (b := 256) (by norm_num) (Nat.pos_of_ne_zero hne),
          ih (n / 256) (by
            have := Nat.div_lt_self (Nat.pos_of_ne_zero hne) (by norm_num : 1 < 256)
            omega)]

/-- The fuelled digit function agrees with `Nat.digits 256`. -/
theorem digits256_eq (n : ℕ) : digits256 n = Nat.digits 256 n :=
  digits256Aux_eq n n le_rfl

theorem numDigits10Aux_eq : ∀ (fuel n : ℕ), n ≤ fuel →
    numDigits10Aux fuel n = (Nat.digits 10 n).length := by
  intro fuel
  induction fuel with
  | zero =>
      intro n hn
      have : n = 0 := Nat.le_zero.mp hn
      subst this
      simp [numDigits10Aux]
  | succ fuel ih =>
      intro n hn
      rcases eq_or_ne n 0 with rfl | hne
      · simp [numDigits10Aux]
      · rw [numDigits10Aux, if_neg hne,
          Nat.digits_def' (b := 10) (by norm_num) (Nat.pos_of_ne_zero hne),
          List.length_cons,
          ih (n / 10) (by
            have := Nat.div_lt_self (Nat.pos_of_ne_zero hne) (by norm_num : 1 < 10)
            omega)]

/-- The fuelled decimal digit count agrees with `Nat.digits 10`. -/
theorem numDigits10_eq (n : ℕ) : numDigits10 n = (Nat.digits 10 n).length :=
  numDigits10Aux_eq n n le_rfl

/-- Appending `t` trailing zeros adds `t` decimal digits. -/
theorem numDigits10_mul_pow10 (c : ℕ) (hc : c ≠ 0) :
    ∀ t, numDigits10 (c * 10 ^ t) = numDigits10 c + t := by
  intro t
  induction t with
  | zero => simp
  | succ t ih =>
      have h1 : c * 10 ^ t * 10 % 10 = 0 := Nat.mul_mod_left _ _
      have h2 : c * 10 ^ t * 10 / 10 = c * 10 ^ t := by omega
      have hstep : Nat.digits 10 (c * 10 ^ t * 10) =
          0 :: Nat.digits 10 (c * 10 ^ t) := by
        rw [Nat.digits_def' (b := 10) (by norm_num) (by positivity), h1, h2]
      rw [pow_succ, ← mul_assoc, numDigits10_eq, hstep, List.length_cons,
        ← numDigits10_eq, ih]
      omega

/-- A value with at most 20 significant digits (i.e. some multiple of a
power of ten whose cofactor has at most 20 digits) is kept exactly by the
precision rounding. -/
theorem roundSig20_eq_self {m c t : ℕ} (hm : m = c * 10 ^ t)
    (hc : numDigits10 c ≤ 20) : roundSig20 m = m := by
  subst hm
  simp only [roundSig20]
  by_cases hd : numDigits10 (c * 10 ^ t) ≤ 20
  · rw [if_pos hd]
  · rw [if_neg hd]
    have hc0 : c ≠ 0 := by
      rintro rfl
      exact hd (by simp [numDigits10, numDigits10Aux])
    have hlen : numDigits10 (c * 10 ^ t) = numDigits10 c + t :=
      numDigits10_mul_pow10 c hc0 t
    set D := numDigits10 (c * 10 ^ t) - 20 with hD
    have hdrop : D ≤ t := by omega
    have hu : c * 10 ^ t = 10 ^ D * (c * 10 ^ (t - D)) := by
      rw [← mul_assoc, mul_comm (10 ^ D) c, mul_assoc, ← pow_add]
      congr 2
      omega
    have hp : 0 < 10 ^ D := by positivity
    rw [hu, Nat.mul_mod_right, Nat.mul_div_cancel_left _ hp, if_neg (by omega),
      mul_comm]

/-- Truncating the base-256 digits of `n` to `k` places reads back as
`n % 256 ^ k`. -/
theorem ofDigits_take_digits : ∀ (k n : ℕ),
    Nat.ofDigits 256 ((Nat.digits 256 n).take k) = n % 256 ^ k := by
  intro k
  induction k with
  | zero => intro n; simp [Nat.mod_one]
  | succ k ih =>
      intro n
      rcases Nat.eq_zero_or_pos n with rfl | hn
      · simp
      · rw [Nat.digits_def' (b := 256) (by norm_num) hn, List.take_succ_cons,
          Nat.ofDigits_cons, ih (n / 256)]
        have h1 : n % (256 * 256 ^ k) / 256 = n / 256 % 256 ^ k :=
          Nat.mod_mul_right_div_self n 256 (256 ^ k)
        have h2 : n % (256 * 256 ^ k) % 256 = n % 256 :=
          Nat.mod_mod_of_dvd n ⟨256 ^ k, rfl⟩
        have h3 := Nat.div_add_mod (n % (256 * 256 ^ k)) 256
        have hpow : 256 ^ (k + 1) = 256 * 256 ^ k := by ring
        rw [hpow]
        omega

/-- Reading back `ofDigits` past a block of zero digits. -/
theorem ofDigits_append_zeros (l : List ℕ) (k : ℕ) :
    Nat.ofDigits 256 (l ++ List.replicate k 0) = Nat.ofDigits 256 l := by
  rw [Nat.ofDigits_append]
  have hz : Nat.ofDigits 256 (List.replicate k (0 : ℕ)) = 0 := by
    induction k with
    | zero => simp
    | succ k ih => simp [List.replicate_succ, Nat.ofDigits_cons, ih]
  simp [hz]

/-- The 8-byte little-endian truncation used by the `uint64`/`int64`
branches: value and length. -/
theorem take8_digits_le (m : ℕ) :
    leBytesToNat ((Nat.digits 256 m ++ List.replicate 8 0).take 8) = m % 2 ^ 64 ∧
    ((Nat.digits 256 m ++ List.replicate 8 0).take 8).length = 8 := by
  constructor
  · rw [List.take_append_eq_append_take, List.take_replicate, leBytesToNat,
      ofDigits_append_zeros, ofDigits_take_digits]
    norm_num
  · simp only [List.length_take, List.length_append, List.length_replicate]
    omega

/-- `bnToArrayBE` reads back as the magnitude. -/
theorem beBytesToNat_bnToArrayBE (v : ℤ) :
    beBytesToNat (bnToArrayBE v) = v.natAbs := by
  rcases eq_or_ne v.natAbs 0 with h | h
  · simp [bnToArrayBE, beBytesToNat, h]
  · simp [bnToArrayBE, beBytesToNat, h, digits256_eq, List.reverse_reverse,
      Nat.ofDigits_digits]

/-- For a nonzero magnitude the big-endian encoding has no leading zero
byte (it is the minimal representation). -/
theorem bnToArrayBE_head_ne_zero {v : ℤ} (h : v.natAbs ≠ 0) :
    ∀ x, (bnToArrayBE v)[0]? = some x → x ≠ 0 := by
  intro x hx
  rw [bnToArrayBE, if_neg h, digits256_eq] at hx
  have hne : Nat.digits 256 v.natAbs ≠ [] := Nat.digits_ne_nil_iff_ne_zero.mpr h
  have hpos : 0 < (Nat.digits 256 v.natAbs).length := List.length_pos.mpr hne
  have hlast := Nat.getLast_digit_ne_zero 256 h
  have hg : (Nat.digits 256 v.natAbs).getLast hne =
      (Nat.digits 256 v.natAbs)[(Nat.digits 256 v.natAbs).length - 1] :=
    List.getLast_eq_getElem _ hne
  rw [List.getElem?_reverse (by simpa using hpos)] at hx
  have hlen : (Nat.digits 256 v.natAbs).length - 1 - 0 =
      (Nat.digits 256 v.natAbs).length - 1 := by omega
  rw [hlen, List.getElem?_eq_getElem (by omega)] at hx
  intro hx0
  exact hlast (by rw [hg, Option.some_inj.mp hx]; exact hx0)

/-! ### Lemmas about `buildDynamicArgs` -/

/-- The argument at position `j` with a non-null coerced value appears in
the built list with index `n + j` (positions are assigned before the
filter). -/
theorem mem_bda_enumFrom :
    ∀ (args : List DynArg) (n j : ℕ) (a : DynArg) (v : String),
      args[j]? = some a → coerceValue a.value = some v →
      (⟨n + j, a.format.getD "hex", v⟩ : CallArg) ∈
        (List.enumFrom n args).filterMap bdaEntry := by
  intro args
  induction args with
  | nil => intro n j a v ha _; simp at ha
  | cons hd tl ih =>
      intro n j a v ha hv
      cases j with
      | zero =>
          rw [List.getElem?_cons_zero, Option.some_inj] at ha
          subst ha
          have hentry : bdaEntry (n, hd) = some ⟨n, hd.format.getD "hex", v⟩ := by
            simp [bdaEntry, hv]
          simp only [List.enumFrom, List.filterMap_cons_some hentry, Nat.add_zero]
          exact List.mem_cons_self _ _
      | succ j =>
          rw [List.getElem?_cons_succ] at ha
          have hmem := ih (n + 1) j a v ha hv
          have harith : n + (j + 1) = n + 1 + j := by omega
          rw [harith]
          simp only [List.enumFrom]
          cases hE : bdaEntry (n, hd) with
          | none => rw [List.filterMap_cons_none hE]; exact hmem
          | some c => rw [List.filterMap_cons_some hE]; exact List.mem_cons_of_mem c hmem

/-- Every member of the built list comes from a position of the input:
its index is `n +` that position, its value is the coerced value there and
its format is the (defaulted) format there. -/
theorem mem_bda_enumFrom_inv :
    ∀ (args : List DynArg) (n : ℕ) (c : CallArg),
      c ∈ (List.enumFrom n args).filterMap bdaEntry →
      ∃ j a, args[j]? = some a ∧ c.index = n + j ∧
        coerceValue a.value = some c.value ∧ c.format = a.format.getD "hex" := by
  intro args
  induction args with
  | nil => intro n c hc; simp [List.enumFrom] at hc
  | cons hd tl ih =>
      intro n c hc
      simp only [List.enumFrom] at hc
      cases hE : bdaEntry (n, hd) with
      | none =>
          rw [List.filterMap_cons_none hE] at hc
          obtain ⟨j, a, h1, h2, h3, h4⟩ := ih (n + 1) c hc
          exact ⟨j + 1, a, by simpa using h1, by omega, h3, h4⟩
      | some c' =>
          rw [List.filterMap_cons_some hE] at hc
          rcases List.mem_cons.mp hc with rfl | hc
          · obtain ⟨v, hv, hc'⟩ := Option.map_eq_some'.mp hE
            refine ⟨0, hd, by simp, ?_, ?_, ?_⟩ <;>
              simp [← hc', hv]
          · obtain ⟨j, a, h1, h2, h3, h4⟩ := ih (n + 1) c hc
            exact ⟨j + 1, a, by simpa using h1, by omega, h3, h4⟩

/-- Indices in the built list are bounded below by the enumeration start. -/
theorem bda_enumFrom_index_lb (args : List DynArg) (n : ℕ) (c : CallArg)
    (hc : c ∈ (List.enumFrom n args).filterMap bdaEntry) : n ≤ c.index := by
  obtain ⟨j, a, -, h2, -, -⟩ := mem_bda_enumFrom_inv args n c hc
  omega

/-- The indices produced by `buildDynamicArgs` are pairwise distinct. -/
theorem bda_enumFrom_index_nodup :
    ∀ (args : List DynArg) (n : ℕ),
      (((List.enumFrom n args).filterMap bdaEntry).map (·.index)).Nodup := by
  intro args
  induction args with
  | nil => intro n; simp [List.enumFrom]
  | cons hd tl ih =>
      intro n
      simp only [List.enumFrom]
      cases hE : bdaEntry (n, hd) with
      | none => rw [List.filterMap_cons_none hE]; exact ih (n + 1)
      | some c =>
          rw [List.filterMap_cons_some hE]
          simp only [List.map_cons, List.nodup_cons]
          have hcn : c.index = n := by
            obtain ⟨v, -, hc'⟩ := Option.map_eq_some'.mp hE
            simp [← hc']
          refine ⟨?_, ih (n + 1)⟩
          intro hmem
          obtain ⟨c', hc', hced⟩ := List.mem_map.mp hmem
          have := bda_enumFrom_index_lb tl (n + 1) c' hc'
          omega

/-! ## Claim theorems -/

set_option maxRecDepth 200000 in
/-- Claim C1, counterexample: the exact value of `(100 + 10) * 1.1` is
`121`, so the claimed `contractMaxFee(100, 10) = ceil((100+10)*1.1) = 121`
fails on the code: the binary64 product is slightly above `121` and
`Math.ceil` returns `122`. -/
theorem contractMaxFee_exact_ceil_counterexample :
    ((100 : ℚ) + 10) * (11 / 10) = 121 ∧
    contractMaxFee (F64.ofNat 100) (F64.ofNat 10) ≠ 121 := by
  constructor
  · norm_num
  · decide

set_option maxRecDepth 200000 in
/-- Claim C1, amended: `contractMaxFee` is `Math.ceil((gasCost+txFee)*1.1)`
computed in binary64 floating point; because `1.1` is not exactly
representable the result can exceed the exact ceiling by one.
In particular `contractMaxFee(100, 10) = 122` (one above the exact ceiling
`121` of the exact product), while e.g. `contractMaxFee(100, 9) = 120`
agrees with the exact ceiling of `109 * 1.1 = 119.9`. -/
theorem contractMaxFee_float_ceil :
    contractMaxFee (F64.ofNat 100) (F64.ofNat 10) = 122 ∧
    ((100 : ℚ) + 10) * (11 / 10) = 121 ∧
    contractMaxFee (F64.ofNat 100) (F64.ofNat 9) = 120 ∧
    (119 : ℚ) < ((100 : ℚ) + 9) * (11 / 10) ∧ ((100 : ℚ) + 9) * (11 / 10) ≤ 120 := by
  refine ⟨by decide, by norm_num, by decide, by norm_num, by norm_num⟩

/-- Claim C8: on the `too early to accept open vote` failure the next
eligible block is recomputed as `startBlock + votingDuration`; the vote is
rescheduled exactly when that is later than the currently scheduled block;
in every case (rescheduled, not rescheduled, or chain read failed) the
original error is shown and the vote is neither deleted nor replaced by the
prolong prompt; with `startBlock = 100`, `votingDuration = 50` a vote
scheduled at block `120` is rescheduled to `150` and one scheduled at
`200` keeps its block. -/
theorem tooEarly_reschedule :
    (∀ (s d : ℕ) (cp : Bool) (v : DeferredVote),
      handleSendVoteError "too early to accept open vote" (some (s, d)) cp v =
        if v.block < s + d then ⟨some (s + d), false, true, false⟩
        else ⟨none, false, true, false⟩) ∧
    (∀ (reads : Option (ℕ × ℕ)) (cp : Bool) (v : DeferredVote),
      (handleSendVoteError "too early to accept open vote" reads cp v).errorShown = true ∧
      (handleSendVoteError "too early to accept open vote" reads cp v).deleted = false ∧
      (handleSendVoteError "too early to accept open vote" reads cp v).prolongPromptShown
        = false) ∧
    handleSendVoteError "too early to accept open vote" (some (100, 50)) false ⟨0, 120⟩ =
      ⟨some 150, false, true, false⟩ ∧
    handleSendVoteError "too early to accept open vote" (some (100, 50)) false ⟨0, 200⟩ =
      ⟨none, false, true, false⟩ := by
  refine ⟨?_, ?_, by decide, by decide⟩
  · intro s d cp v
    unfold handleSendVoteError
    rw [if_pos rfl]
  · intro reads cp v
    unfold handleSendVoteError
    rw [if_pos rfl]
    match reads with
    | none => exact ⟨rfl, rfl, rfl⟩
    | some (s, d) =>
        by_cases hb : v.block < s + d
        · simp [hb]
        · simp [hb]

/-- Claim C9, counterexample: with a vote scheduled at block `5` and the
current chain block also `5` (so current ≥ scheduled), the vote is NOT
offered — the filter `x.block < currentBlock` is strict, contradicting the
claimed `current chain block ≥ scheduled block`. -/
theorem eligibility_at_equal_block_counterexample :
    (5 : ℕ) ≤ 5 ∧ availableVotes [⟨0, 5⟩] 5 = [] := ⟨le_rfl, by decide⟩

/-- Claim C9, amended: a queued deferred vote is offered for submission
exactly when the current chain block is strictly greater than its
scheduled block; at equality it stays pending. -/
theorem availableVotes_strict :
    ∀ (votes : List DeferredVote) (cur : ℕ) (v : DeferredVote),
      v ∈ availableVotes votes cur ↔ (v ∈ votes ∧ v.block < cur) := by
  intro votes cur v
  simp [availableVotes, List.mem_filter]

/-- Claim C2: `argsToSlice` of an empty argument list is the empty slice
(no placeholder element); of a non-empty list it is a slice of length
`maxIndex + 1` in which every unsupplied index holds the `null`
placeholder; in particular a single argument `{index: 2, format: 'byte',
value: '5'}` yields `[null, null, [5]]`. -/
theorem argsToSlice_shape :
    argsToSlice [] = .ok [] ∧
    (∀ (args : List CallArg) (l : List Slot), args ≠ [] → argsToSlice args = .ok l →
      l.length = maxNat (args.map (·.index)) + 1 ∧
      ∀ j, j ≤ maxNat (args.map (·.index)) → j ∉ args.map (·.index) →
        l[j]? = some Slot.null) ∧
    argsToSlice [⟨2, "byte", "5"⟩] = .ok [Slot.null, Slot.null, Slot.bytes [5]] := by
  refine ⟨rfl, ?_, by decide⟩
  intro args l hne hok
  exact argsToSlice_ok_spec hne hok

/-- Witness for C2: the length/placeholder clause evaluated on the
single-argument example. -/
theorem argsToSlice_shape_witness :
    ([(⟨2, "byte", "5"⟩ : CallArg)] ≠ []) ∧
    ([Slot.null, Slot.null, Slot.bytes [5]] : List Slot).length =
      maxNat ([(⟨2, "byte", "5"⟩ : CallArg)].map (·.index)) + 1 :=
  ⟨by decide,
    (argsToSlice_shape.2.1 [⟨2, "byte", "5"⟩]
      [Slot.null, Slot.null, Slot.bytes [5]] (by decide) (by decide)).1⟩

/-- Claim C6: `hasWinner` is true iff the quorum is reached
(`votesCount ≥ ceil(committeeSize * quorum / 100)`) and some option's
count reaches the winner threshold computed over the sum of all option
counts (not the raw `votesCount` field); in particular with
`votes = [40, 10]`, `votesCount = 50`, `winnerThreshold = 66`,
`quorum = 50`, `committeeSize = 80` it returns true. -/
theorem hasWinner_spec :
    (∀ r : VotingRecord,
      hasWinner r = true ↔
        ((⌈r.committeeSize * r.quorum / 100⌉ : ℚ) ≤ r.votesCount ∧
          ∃ v ∈ r.votes,
            ((⌈sumVoteCounts r.votes * r.winnerThreshold / 100⌉ : ℚ) ≤ v.count))) ∧
    hasWinner ⟨[⟨40⟩, ⟨10⟩], 50, 50, 80, 66⟩ = true := by
  have hiff : ∀ r : VotingRecord,
      hasWinner r = true ↔
        ((⌈r.committeeSize * r.quorum / 100⌉ : ℚ) ≤ r.votesCount ∧
          ∃ v ∈ r.votes,
            ((⌈sumVoteCounts r.votes * r.winnerThreshold / 100⌉ : ℚ) ≤ v.count)) := by
    intro r
    simp only [hasWinner, hasQuorum, quorumVotesCount, winnerVotesCount,
      Bool.and_eq_true, decide_eq_true_eq, List.any_eq_true]
  refine ⟨hiff, ?_⟩
  rw [hiff]
  constructor
  · show (⌈(80 : ℚ) * 50 / 100⌉ : ℚ) ≤ 50
    norm_num
  · refine ⟨⟨40⟩, by simp, ?_⟩
    show (⌈sumVoteCounts [⟨40⟩, ⟨10⟩] * 66 / 100⌉ : ℚ) ≤ 40
    have hsum : sumVoteCounts [(⟨40⟩ : Vote), ⟨10⟩] = 50 := by
      simp [sumVoteCounts]
      norm_num
    rw [hsum]
    norm_num

/-- Claim C7: `oracleReward` returns an absent result when any of balance,
votesCount, quorum, committeeSize is `NaN` (it propagates "unknown" rather
than throwing); on finite numeric inputs (with a nonzero accountable-vote
denominator) it returns
`balance * (1 - ownerFee/100) / max(quorumVotesCount, votesCount)`. -/
theorem oracleReward_spec :
    (∀ b vc q cs f : JSNum,
      (b.isNaN = true ∨ vc.isNaN = true ∨ q.isNaN = true ∨ cs.isNaN = true) →
      oracleReward b vc q cs f = none) ∧
    (∀ qb qvc qq qcs qf : ℚ,
      max (⌈qcs * qq / 100⌉ : ℚ) qvc ≠ 0 →
      oracleReward (.num qb) (.num qvc) (.num qq) (.num qcs) (.num qf) =
        some (.num (qb * (1 - qf / 100) / max (⌈qcs * qq / 100⌉ : ℚ) qvc))) := by
  constructor
  · intro b vc q cs f h
    rw [oracleReward, if_pos]
    simp only [List.any_eq_true, List.mem_cons]
    rcases h with h | h | h | h
    · exact ⟨b, by tauto, h⟩
    · exact ⟨vc, by tauto, h⟩
    · exact ⟨q, by tauto, h⟩
    · exact ⟨cs, by tauto, h⟩
  · intro qb qvc qq qcs qf hden
    rw [oracleReward, if_neg (by simp [JSNum.isNaN])]
    have h100 : (100 : ℚ) ≠ 0 := by norm_num
    simp [JSNum.jsMul, JSNum.jsSub, JSNum.jsDiv, JSNum.jsCeil, JSNum.jsMax, h100, hden]

/-- Witness for C7: a `NaN` balance yields an absent result, and concrete
numeric inputs yield the formula value. -/
theorem oracleReward_spec_witness :
    oracleReward .nan (.num 50) (.num 50) (.num 80) (.num 20) = none ∧
    oracleReward (.num 100) (.num 50) (.num 50) (.num 80) (.num 20) =
      some (.num (100 * (1 - 20 / 100) / max (⌈(80 : ℚ) * 50 / 100⌉ : ℚ) 50)) :=
  ⟨oracleReward_spec.1 .nan (.num 50) (.num 50) (.num 80) (.num 20) (Or.inl rfl),
    oracleReward_spec.2 100 50 50 80 20 (by norm_num)⟩

/-- Claim C3, counterexample: the multiplication is NOT exact decimal
arithmetic for all inputs.  decimal.js rounds `mul` results to its default
precision of 20 significant digits (`utils.js` only raises `toExpPos`), so
for `'123.456789012345678901'` — whose exact product with `10^18` is the
21-significant-digit integer `123456789012345678901` — the code encodes
the rounded value `123456789012345678900` instead of the exact one. -/
theorem dna_precision_counterexample :
    parseDecimal "123.456789012345678901" =
      some ⟨false, 123456789012345678901, 18⟩ ∧
    ((123456789012345678901 : ℕ) : ℚ) / (10 : ℚ) ^ (18 : ℕ) * (dnaBase : ℚ) =
      ((123456789012345678901 : ℕ) : ℚ) ∧
    argToBytes ⟨0, "dna", "123.456789012345678901"⟩ =
      .ok [6, 177, 78, 159, 129, 47, 54, 108, 52] ∧
    beBytesToNat [6, 177, 78, 159, 129, 47, 54, 108, 52] = 123456789012345678900 ∧
    (123456789012345678900 : ℕ) ≠ 123456789012345678901 := by
  refine ⟨by decide, ?_, by decide, by decide, by decide⟩
  norm_num [dnaBase]

/-- Claim C3, amended: the `dna` format multiplies the decimal-string
value by `10^18` in decimal arithmetic at decimal.js's default precision
of 20 significant digits (round-half-up; products with more significant
digits are rounded before encoding), and encodes the resulting integer as
the minimal big-endian byte string; whenever the exact product has at most
20 significant digits the encoding is exact — in particular `'1.5'`
encodes to exactly the big-endian bytes of `1500000000000000000`, with no
floating-point rounding. -/
theorem dna_encoding :
    (∀ (s : String) (i : ℕ) (d : DecimalVal) (n c t : ℕ),
        parseDecimal s = some d →
        (d.mantissa : ℚ) / (10 : ℚ) ^ d.scale * (dnaBase : ℚ) = (n : ℚ) →
        d.mantissa * dnaBase = c * 10 ^ t → numDigits10 c ≤ 20 →
        ∃ l, argToBytes ⟨i, "dna", s⟩ = .ok l ∧ beBytesToNat l = n ∧
          (n ≠ 0 → ∀ x, l[0]? = some x → x ≠ 0)) ∧
    argToBytes ⟨0, "dna", "1.5"⟩ = .ok [20, 209, 18, 13, 123, 22, 0, 0] ∧
    beBytesToNat [20, 209, 18, 13, 123, 22, 0, 0] = 1500000000000000000 := by
  refine ⟨?_, by decide, by decide⟩
  intro s i d n c t hparse hrat hct hc20
  have hpow : ((10 : ℚ) ^ d.scale) ≠ 0 := by positivity
  rw [div_mul_eq_mul_div, div_eq_iff hpow] at hrat
  have hnat : d.mantissa * dnaBase = n * 10 ^ d.scale := by exact_mod_cast hrat
  have hround : roundSig20 (d.mantissa * dnaBase) = d.mantissa * dnaBase :=
    roundSig20_eq_self hct hc20
  have hmod : roundSig20 (d.mantissa * dnaBase) % 10 ^ d.scale = 0 := by
    rw [hround, hnat]; exact Nat.mul_mod_left n (10 ^ d.scale)
  have hquot : roundSig20 (d.mantissa * dnaBase) / 10 ^ d.scale = n := by
    rw [hround, hnat]
    exact Nat.mul_div_cancel n (Nat.pos_pow_of_pos d.scale (by norm_num))
  refine ⟨bnToArrayBE ((n : ℕ) : ℤ), ?_, ?_, ?_⟩
  · simp [argToBytes, argToBytesInner, hparse, hmod, hquot]
  · simpa using beBytesToNat_bnToArrayBE ((n : ℕ) : ℤ)
  · intro hn x hx
    exact bnToArrayBE_head_ne_zero (v := ((n : ℕ) : ℤ)) (by simpa using hn) x hx

/-- Witness for C3 (amended): the general clause evaluated at `'1.5'`,
whose product `15 * 10^18` has 2 significant digits. -/
theorem dna_encoding_witness :
    ∃ l, argToBytes ⟨0, "dna", "1.5"⟩ = .ok l ∧
      beBytesToNat l = 1500000000000000000 ∧
      (1500000000000000000 ≠ 0 → ∀ x, l[0]? = some x → x ≠ 0) :=
  dna_encoding.1 "1.5" 0 ⟨false, 15, 1⟩ 1500000000000000000 15 18 (by decide)
    (by
      show ((15 : ℕ) : ℚ) / (10 : ℚ) ^ (1 : ℕ) * ((dnaBase : ℕ) : ℚ) =
        ((1500000000000000000 : ℕ) : ℚ)
      norm_num [dnaBase])
    (by decide) (by decide)

/-- Claim C4: the `uint64` format parses the value as an
arbitrary-precision integer, fails (with the argument's index and format)
when it is negative, and otherwise yields exactly 8 little-endian bytes
whose value is the input reduced modulo `2^64` (zero-padded for small
values, silently truncated for values over 64 bits). -/
theorem uint64_encoding :
    ∀ (s : String) (i : ℕ) (v : ℤ), parseBN s = some v →
      (v < 0 → argToBytes ⟨i, "uint64", s⟩ =
        .error ⟨i, "uint64", "invalid uint64 value"⟩) ∧
      (0 ≤ v → ∃ l, argToBytes ⟨i, "uint64", s⟩ = .ok l ∧ l.length = 8 ∧
        leBytesToNat l = v.toNat % 2 ^ 64) := by
  intro s i v hv
  constructor
  · intro hneg
    simp [argToBytes, argToBytesInner, hv, hneg]
  · intro hpos
    have hnneg : ¬ v < 0 := not_lt.mpr hpos
    have htn : v.natAbs = v.toNat := by omega
    refine ⟨(bnToArrayLE v ++ List.replicate 8 0).take 8, ?_, ?_, ?_⟩
    · simp [argToBytes, argToBytesInner, hv, hnneg]
    · rcases eq_or_ne v.natAbs 0 with h0 | hne
      · rw [bnToArrayLE, if_pos h0]
        decide
      · rw [bnToArrayLE, if_neg hne, digits256_eq]
        exact (take8_digits_le v.natAbs).2
    · rcases eq_or_ne v.natAbs 0 with h0 | hne
      · have hz : v = 0 := by omega
        subst hz
        decide
      · rw [bnToArrayLE, if_neg hne, digits256_eq, (take8_digits_le v.natAbs).1, htn]

/-- Witness for C4: `'300'` encodes to 8 zero-padded little-endian bytes
and `'-5'` fails with the index/format-carrying error. -/
theorem uint64_encoding_witness :
    (∃ l, argToBytes ⟨0, "uint64", "300"⟩ = .ok l ∧ l.length = 8 ∧
      leBytesToNat l = (300 : ℤ).toNat % 2 ^ 64) ∧
    argToBytes ⟨1, "uint64", "-5"⟩ = .error ⟨1, "uint64", "invalid uint64 value"⟩ :=
  ⟨(uint64_encoding "300" 0 300 (by decide)).2 (by decide),
    (uint64_encoding "-5" 1 (-5) (by decide)).1 (by decide)⟩

/-- Claim C5: the `byte` (and `int8`) format succeeds with the single-byte
output `[v]` exactly when the value parses (via `parseInt`) to an integer
`v` in `[0, 255]`; any other input fails with an error carrying the
argument's index and format. -/
theorem byte_encoding :
    ∀ (s : String) (i : ℕ) (fm : String), fm = "byte" ∨ fm = "int8" →
      (∀ l, argToBytes ⟨i, fm, s⟩ = .ok l →
        ∃ v, jsParseInt s = some v ∧ 0 ≤ v ∧ v ≤ 255 ∧ l = [v.toNat]) ∧
      (∀ v, jsParseInt s = some v → 0 ≤ v → v ≤ 255 →
        argToBytes ⟨i, fm, s⟩ = .ok [v.toNat]) ∧
      (∀ e, argToBytes ⟨i, fm, s⟩ = .error e → e.index = i ∧ e.format = fm) := by
  intro s i fm hfm
  rcases hfm with rfl | rfl
  · cases hp : jsParseInt s with
    | none =>
        have hcomp : argToBytes ⟨i, "byte", s⟩ =
            .error ⟨i, "byte", "invalid byte value"⟩ := by
          simp [argToBytes, argToBytesInner, hp]
        refine ⟨?_, ?_, ?_⟩
        · intro l hl; rw [hcomp] at hl; exact Except.noConfusion hl
        · intro v hv; exact Option.noConfusion hv
        · intro e he
          rw [hcomp] at he
          injection he with h
          subst h
          exact ⟨rfl, rfl⟩
    | some v =>
        by_cases hc : 0 ≤ v ∧ v ≤ 255
        · have hcomp : argToBytes ⟨i, "byte", s⟩ = .ok [v.toNat] := by
            simp [argToBytes, argToBytesInner, hp, hc]
          refine ⟨?_, ?_, ?_⟩
          · intro l hl
            rw [hcomp] at hl
            injection hl with h
            exact ⟨v, rfl, hc.1, hc.2, h.symm⟩
          · intro v' hv' h0 h255
            injection hv' with h
            subst h
            exact hcomp
          · intro e he; rw [hcomp] at he; exact Except.noConfusion he
        · have hcomp : argToBytes ⟨i, "byte", s⟩ =
              .error ⟨i, "byte", "invalid byte value"⟩ := by
            simp [argToBytes, argToBytesInner, hp, hc]
          refine ⟨?_, ?_, ?_⟩
          · intro l hl; rw [hcomp] at hl; exact Except.noConfusion hl
          · intro v' hv' h0 h255
            injection hv' with h
            subst h
            exact absurd ⟨h0, h255⟩ hc
          · intro e he
            rw [hcomp] at he
            injection he with h
            subst h
            exact ⟨rfl, rfl⟩
  · cases hp : jsParseInt s with
    | none =>
        have hcomp : argToBytes ⟨i, "int8", s⟩ =
            .error ⟨i, "int8", "invalid int8 value"⟩ := by
          simp [argToBytes, argToBytesInner, hp]
        refine ⟨?_, ?_, ?_⟩
        · intro l hl; rw [hcomp] at hl; exact Except.noConfusion hl
        · intro v hv; exact Option.noConfusion hv
        · intro e he
          rw [hcomp] at he
          injection he with h
          subst h
          exact ⟨rfl, rfl⟩
    | some v =>
        by_cases hc : 0 ≤ v ∧ v ≤ 255
        · have hcomp : argToBytes ⟨i, "int8", s⟩ = .ok [v.toNat] := by
            simp [argToBytes, argToBytesInner, hp, hc]
          refine ⟨?_, ?_, ?_⟩
          · intro l hl
            rw [hcomp] at hl
            injection hl with h
            exact ⟨v, rfl, hc.1, hc.2, h.symm⟩
          · intro v' hv' h0 h255
            injection hv' with h
            subst h
            exact hcomp
          · intro e he; rw [hcomp] at he; exact Except.noConfusion he
        · have hcomp : argToBytes ⟨i, "int8", s⟩ =
              .error ⟨i, "int8", "invalid int8 value"⟩ := by
            simp [argToBytes, argToBytesInner, hp, hc]
          refine ⟨?_, ?_, ?_⟩
          · intro l hl; rw [hcomp] at hl; exact Except.noConfusion hl
          · intro v' hv' h0 h255
            injection hv' with h
            subst h
            exact absurd ⟨h0, h255⟩ hc
          · intro e he
            rw [hcomp] at he
            injection he with h
            subst h
            exact ⟨rfl, rfl⟩

/-- Witness for C5: `'5'` encodes to `[5]`; `'-1'` fails with an error
carrying index `3` and format `byte`. -/
theorem byte_encoding_witness :
    argToBytes ⟨7, "byte", "5"⟩ = .ok [(5 : ℤ).toNat] ∧
    ((⟨3, "byte", "invalid byte value"⟩ : EncodingError).index = 3 ∧
      (⟨3, "byte", "invalid byte value"⟩ : EncodingError).format = "byte") :=
  ⟨(byte_encoding "5" 7 "byte" (Or.inl rfl)).2.1 5 (by decide) (by decide) (by decide),
    (byte_encoding "-1" 3 "byte" (Or.inl rfl)).2.2
      ⟨3, "byte", "invalid byte value"⟩ (by decide)⟩

/-- Claim C10, counterexample: when the null-valued argument is the LAST
input argument, dropping it leaves no placeholder gap at its position —
the slice simply ends before it: for the input
`[{format: 'byte', value: '5'}, {value: null}]` the slice is `[[5]]` and
position `1` holds nothing (in particular not the `null` placeholder). -/
theorem buildDynamicArgs_trailing_null_counterexample :
    argsToSlice (buildDynamicArgs [⟨some "byte", .str "5"⟩, ⟨none, .null⟩]) =
      .ok [Slot.bytes [5]] ∧
    ([Slot.bytes [5]] : List Slot)[1]? = none ∧
    ¬ ([Slot.bytes [5]] : List Slot)[1]? = some Slot.null := by
  refine ⟨by decide, by decide, by decide⟩

/-- Claim C10, amended: `buildDynamicArgs` fixes each argument's index to
its position in the original input list before null-valued arguments are
dropped; consequently dropping a null-valued argument never shifts the
indices of the arguments that follow it — every non-null argument's
encoding sits at exactly its original position — and a dropped null
argument leaves the `null` placeholder at its position whenever some LATER
argument is non-null (a dropped trailing null instead shortens the slice). -/
theorem buildDynamicArgs_position_stable :
    ∀ (args : List DynArg) (l : List Slot),
      argsToSlice (buildDynamicArgs args) = .ok l →
      (∀ (j : ℕ) (a : DynArg) (v : String),
        args[j]? = some a → coerceValue a.value = some v →
        ∃ b, argToBytes ⟨j, a.format.getD "hex", v⟩ = .ok b ∧
          l[j]? = some (Slot.bytes b)) ∧
      (∀ (j : ℕ) (a : DynArg),
        args[j]? = some a → coerceValue a.value = none →
        (∃ (k : ℕ) (a' : DynArg) (v' : String),
          j < k ∧ args[k]? = some a' ∧ coerceValue a'.value = some v') →
        l[j]? = some Slot.null) := by
  intro args l hok
  have henum : buildDynamicArgs args = (List.enumFrom 0 args).filterMap bdaEntry := rfl
  constructor
  · intro j a v ha hv
    have hc : (⟨0 + j, a.format.getD "hex", v⟩ : CallArg) ∈
        (List.enumFrom 0 args).filterMap bdaEntry :=
      mem_bda_enumFrom args 0 j a v ha hv
    rw [Nat.zero_add] at hc
    rw [← henum] at hc
    have hne : buildDynamicArgs args ≠ [] := List.ne_nil_of_mem hc
    have hnd : ((buildDynamicArgs args).map (·.index)).Nodup := by
      rw [henum]; exact bda_enumFrom_index_nodup args 0
    obtain ⟨b, hb, hl⟩ := argsToSlice_ok_assign hne hnd hok _ hc
    exact ⟨b, hb, hl⟩
  · intro j a ha hnull ⟨k, a', v', hjk, hk, hv'⟩
    have hck : (⟨0 + k, a'.format.getD "hex", v'⟩ : CallArg) ∈
        (List.enumFrom 0 args).filterMap bdaEntry :=
      mem_bda_enumFrom args 0 k a' v' hk hv'
    rw [Nat.zero_add] at hck
    rw [← henum] at hck
    have hne : buildDynamicArgs args ≠ [] := List.ne_nil_of_mem hck
    have hkmem : k ∈ (buildDynamicArgs args).map (·.index) :=
      List.mem_map_of_mem (·.index) hck
    have hkM : k ≤ maxNat ((buildDynamicArgs args).map (·.index)) := le_maxNat hkmem
    have hjnot : j ∉ (buildDynamicArgs args).map (·.index) := by
      intro hj
      obtain ⟨c, hcmem, hcj⟩ := List.mem_map.mp hj
      rw [henum] at hcmem
      obtain ⟨j', a'', h1, h2, h3, -⟩ := mem_bda_enumFrom_inv args 0 c hcmem
      have hjj : j' = j := by omega
      subst hjj
      rw [ha] at h1
      injection h1 with h1
      subst h1
      rw [hnull] at h3
      exact Option.noConfusion h3
    exact (argsToSlice_ok_spec hne hok).2 j (by omega) hjnot

/-- Witness for C10: on `[{value: null}, {format: 'byte', value: '5'}]`
the dropped first argument leaves a `null` placeholder at position `0` and
the second argument's byte sits at position `1`. -/
theorem buildDynamicArgs_position_stable_witness :
    (∃ b, argToBytes ⟨1, "byte", "5"⟩ = .ok b ∧
      ([Slot.null, Slot.bytes [5]] : List Slot)[1]? = some (Slot.bytes b)) ∧
    ([Slot.null, Slot.bytes [5]] : List Slot)[0]? = some Slot.null := by
  have h := buildDynamicArgs_position_stable
    [⟨none, .null⟩, ⟨some "byte", .str "5"⟩] [Slot.null, Slot.bytes [5]] (by decide)
  exact ⟨h.1 1 ⟨some "byte", .str "5"⟩ "5" (by decide) (by decide),
    h.2 0 ⟨none, .null⟩ (by decide) (by decide)
      ⟨1, ⟨some "byte", .str "5"⟩, "5", by omega, by decide, by decide⟩⟩

/-- Witness for C6: the characterization instantiated at the example
record. -/
theorem hasWinner_spec_witness :
    hasWinner ⟨[⟨40⟩, ⟨10⟩], 50, 50, 80, 66⟩ = true ↔
      ((⌈(80 : ℚ) * 50 / 100⌉ : ℚ) ≤ 50 ∧
        ∃ v ∈ [(⟨40⟩ : Vote), ⟨10⟩],
          ((⌈sumVoteCounts [(⟨40⟩ : Vote), ⟨10⟩] * 66 / 100⌉ : ℚ) ≤ v.count)) :=
  hasWinner_spec.1 ⟨[⟨40⟩, ⟨10⟩], 50, 50, 80, 66⟩

/-- Witness for C8: the reschedule clause instantiated at the example
blocks. -/
theorem tooEarly_reschedule_witness :
    handleSendVoteError "too early to accept open vote" (some (100, 50)) false ⟨0, 120⟩ =
      if (120 : ℕ) < 100 + 50 then ⟨some (100 + 50), false, true, false⟩
      else ⟨none, false, true, false⟩ :=
  tooEarly_reschedule.1 100 50 false ⟨0, 120⟩

/-- Witness for C9 (amended): the strict eligibility filter instantiated
at a concrete queue. -/
theorem availableVotes_strict_witness :
    (⟨0, 5⟩ : DeferredVote) ∈ availableVotes [⟨0, 5⟩] 6 ↔
      ((⟨0, 5⟩ : DeferredVote) ∈ [(⟨0, 5⟩ : DeferredVote)] ∧ 5 < 6) :=
  availableVotes_strict [⟨0, 5⟩] 6 ⟨0, 5⟩

end IdenaWeb
